import Mathlib

/-!
Formal model of the perp-microstructure-depth repository.

Two source files are modelled:

* `src/pipelines/normalize_l2.py` — fixed-point decimal codec (`to_fp`),
  top-of-book reconstruction (`TopBook`), continuity checking
  (`continuity_ok`), and the per-file normalization/audit pass
  (`process_raw_dir`'s per-file loop).
* `src/ingestion/writers/rotating_jsonl_writer.py` — the rotating durable
  writer (`RotatingJSONLWriter`) over an abstract filesystem.

Modelling conventions:

* Python arbitrary-precision `int` is `ℤ` (or `ℕ` for counters).
* Wall-clock times (`time.time()`) are `ℚ`, supplied as explicit inputs.
* Byte strings are opaque `String` values; file contents are lists of the
  written chunks (byte concatenation of opaque chunks is list append).
* The filesystem visible to the writer is two finite-support maps,
  one for names carrying the `.tmp` suffix and one for final names
  (no final filename ever ends in `.tmp`, so the namespaces are disjoint).
* `decimal.Decimal` values are modelled exactly as sign/coefficient/exponent
  triples; the module-level context `getcontext().prec = 50` with the default
  `ROUND_HALF_EVEN` rounding, and the default exponent ceiling `Emax = 999999`
  with `Overflow` trapped, are modelled in multiplication.  The context's
  `Emin`/subnormal rounding (`Underflow` is not trapped) can only change
  values below `10^-999998`, whose rounding to an integer is 0 either way,
  so it needs no separate model at the `to_fp` level.  Special values
  (NaN/Infinity), which make the downstream `int()` conversion raise, are
  folded into parse failure, as `to_fp` fails on them either way.
* JSON decoding (`orjson`) is an external trusted codec per the spec; a raw
  input line is therefore modelled by the outcome of the three per-line
  classification steps (parse, schema check, normalization), with the kept
  case carrying the normalized delta.
-/

/-! ## Fixed-point codec: model of `to_fp` (normalize_l2.py lines 24-25) -/

/-- Decimal context precision set by `getcontext().prec = 50`. -/
def DEC_PREC : ℕ := 50

/-- Price scale `10**8` from normalize_l2.py line 14. -/
def PRICE_SCALE : ℕ := 10 ^ 8

/-- Quantity scale `10**8` from normalize_l2.py line 15. -/
def QTY_SCALE : ℕ := 10 ^ 8

/-- Finite `decimal.Decimal` value: `(-1)^neg * coeff * 10^exp`. -/
structure Dec where
  neg : Bool
  coeff : ℕ
  exp : ℤ
deriving DecidableEq

/-- Rational value denoted by a finite decimal. -/
def Dec.toRat (d : Dec) : ℚ :=
  (if d.neg then (-1 : ℚ) else 1) * (d.coeff : ℚ) * (10 : ℚ) ^ d.exp

/-- ASCII decimal digit test. -/
def isDigitC (c : Char) : Bool := decide ('0' ≤ c) && decide (c ≤ '9')

/-- Whitespace stripped by `str.strip()` before decimal parsing. -/
def isPySpace (c : Char) : Bool :=
  c == ' ' || c == '\t' || c == '\n' || c == '\r' || c.toNat == 11 || c.toNat == 12

/-- Numeric value of a digit run. -/
def digitsVal (ds : List Char) : ℕ :=
  ds.foldl (fun a c => 10 * a + (c.toNat - 48)) 0

/-- Strip leading and trailing whitespace. -/
def stripSpaces (cs : List Char) : List Char :=
  ((cs.dropWhile isPySpace).reverse.dropWhile isPySpace).reverse

/-- Parse the digits of an exponent part; the whole remainder must be digits. -/
def parseExpDigits (cs : List Char) : Option ℕ :=
  let ds := cs.takeWhile isDigitC
  if ds.length = 0 ∨ cs.drop ds.length ≠ [] then none else some (digitsVal ds)

/-- Parse an unsigned decimal numeral `digits [. digits] [(e|E) [sign] digits]`
into coefficient and exponent, following the numeric-string grammar accepted
by the `decimal.Decimal` constructor on finite values. -/
def parseBody (cs : List Char) : Option (ℕ × ℤ) :=
  let ip := cs.takeWhile isDigitC
  let rest1 := cs.drop ip.length
  let fp2 := match rest1 with
    | '.' :: r => r.takeWhile isDigitC
    | _ => []
  let rest2 := match rest1 with
    | '.' :: r => r.drop fp2.length
    | _ => rest1
  if ip.length = 0 ∧ fp2.length = 0 then none
  else
    let coeff := digitsVal (ip ++ fp2)
    let e0 : ℤ := -(fp2.length : ℤ)
    match rest2 with
    | [] => some (coeff, e0)
    | c :: r3 =>
      if c = 'e' ∨ c = 'E' then
        match r3 with
        | '+' :: r4 => (parseExpDigits r4).map (fun v => (coeff, e0 + (v : ℤ)))
        | '-' :: r4 => (parseExpDigits r4).map (fun v => (coeff, e0 - (v : ℤ)))
        | r4 => (parseExpDigits r4).map (fun v => (coeff, e0 + (v : ℤ)))
      else none

/-- Model of the `Decimal(x)` constructor on finite numeric strings.  Per
the constructor's documented behavior, leading and trailing whitespace as
well as underscores throughout are removed before parsing. -/
def parseDec (s : String) : Option Dec :=
  match stripSpaces (s.toList.filter (fun c => decide (c ≠ '_'))) with
  | '+' :: r => (parseBody r).map (fun ce => ⟨false, ce.1, ce.2⟩)
  | '-' :: r => (parseBody r).map (fun ce => ⟨true, ce.1, ce.2⟩)
  | r => (parseBody r).map (fun ce => ⟨false, ce.1, ce.2⟩)

/-- Round `a / b` to the nearest natural number, ties to even
(`ROUND_HALF_EVEN`, the context default). -/
def roundHalfEvenDiv (a b : ℕ) : ℕ :=
  if 2 * (a % b) < b then a / b
  else if b < 2 * (a % b) then a / b + 1
  else if (a / b) % 2 = 0 then a / b else a / b + 1

/-- Number of low-order digits a coefficient must drop to fit in `DEC_PREC`
digits (fuelled division by 10; the fuel `c` is ample). -/
def excessDigitsAux : ℕ → ℕ → ℕ
  | 0, _ => 0
  | fuel + 1, c => if c < 10 ^ DEC_PREC then 0 else excessDigitsAux fuel (c / 10) + 1

/-- Number of digits by which a coefficient exceeds the context precision. -/
def excessDigits (c : ℕ) : ℕ := excessDigitsAux c c

/-- Exponent ceiling of the module's decimal context (`Emax = 999999`, the
default); `Overflow` is among the default context's trapped signals, so a
finite multiplication result adjusted above `EMAX` raises. -/
def EMAX : ℤ := 999999

/-- Digit count of a coefficient, with fuel (ample at `n` itself); the zero
coefficient has one digit, as in Python. -/
def numDigitsAux : ℕ → ℕ → ℕ
  | 0, _ => 1
  | fuel + 1, n => if n < 10 then 1 else numDigitsAux fuel (n / 10) + 1

/-- Number of digits of a coefficient. -/
def numDigits (n : ℕ) : ℕ := numDigitsAux n n

/-- Adjusted exponent `exp + digits(coeff) - 1` of a finite decimal. -/
def Dec.adjusted (d : Dec) : ℤ := d.exp + (numDigits d.coeff : ℤ) - 1

/-- Coefficient arithmetic of `Decimal * int` under the module context
(`prec = 50`, `ROUND_HALF_EVEN`): the exact product's coefficient is kept
when it fits in `DEC_PREC` digits and otherwise rounded to `DEC_PREC`
digits. -/
def Dec.mulRaw (d : Dec) (k : ℕ) : Dec :=
  if d.coeff * k < 10 ^ DEC_PREC then ⟨d.neg, d.coeff * k, d.exp⟩
  else
    ⟨d.neg, roundHalfEvenDiv (d.coeff * k) (10 ^ excessDigits (d.coeff * k)),
     d.exp + (excessDigits (d.coeff * k) : ℤ)⟩

/-- Model of `Decimal * int` under the module context: precision rounding
as in `Dec.mulRaw`, then the context's overflow check — a nonzero result
whose adjusted exponent exceeds `EMAX` raises `decimal.Overflow` (trapped
by default), modelled as `none`.  A zero result is clamped, not raised. -/
def Dec.mulNat (d : Dec) (k : ℕ) : Option Dec :=
  if (d.mulRaw k).coeff ≠ 0 ∧ EMAX < (d.mulRaw k).adjusted then none
  else some (d.mulRaw k)

/-- Magnitude of the nearest integer (ties to even) to a finite decimal. -/
def Dec.magNat (d : Dec) : ℕ :=
  if 0 ≤ d.exp then d.coeff * 10 ^ d.exp.toNat
  else roundHalfEvenDiv d.coeff (10 ^ (-d.exp).toNat)

/-- Model of `Decimal.to_integral_exact()` followed by `int(...)`:
round the value to the nearest integer, ties to even. -/
def Dec.toIntegralExact (d : Dec) : ℤ :=
  if d.neg then -(d.magNat : ℤ) else (d.magNat : ℤ)

/-- Model of `to_fp(x, scale) = int((Decimal(x) * scale).to_integral_exact())`
(normalize_l2.py lines 24-25).  `none` models the raising paths: invalid
numeric strings and trapped `Overflow` in the multiplication. -/
def to_fp (x : String) (scale : ℕ) : Option ℤ :=
  (parseDec x).bind (fun d => (d.mulNat scale).map Dec.toIntegralExact)

/-! ## Continuity checker (normalize_l2.py lines 126-129) -/

/-- Model of `continuity_ok(prev_u, U, u)`; the chained comparison
`U <= prev_u + 1 <= u` is the conjunction of its two parts. -/
def continuity_ok (prev_u : Option ℤ) (U u : ℤ) : Bool :=
  match prev_u with
  | none => true
  | some p => decide (U ≤ p + 1) && decide (p + 1 ≤ u)

/-! ## Top-of-book (normalize_l2.py lines 72-107)

A Python dict is modelled as an association list with unique keys in
insertion order; assignment replaces the first matching entry in place or
appends, deletion removes the entry.  Only lookup and the key set matter to
the claims. -/

/-- Dict lookup: value stored under a key. -/
def lookupKey : List (ℤ × ℤ) → ℤ → Option ℤ
  | [], _ => none
  | (k, v) :: rest, p => if k = p then some v else lookupKey rest p

/-- Dict deletion `d.pop(k, None)`. -/
def eraseKey (m : List (ℤ × ℤ)) (k : ℤ) : List (ℤ × ℤ) :=
  m.filter (fun e => decide (e.1 ≠ k))

/-- Dict assignment `d[k] = v`. -/
def setKey : List (ℤ × ℤ) → ℤ → ℤ → List (ℤ × ℤ)
  | [], k, v => [(k, v)]
  | (k', v') :: rest, k, v =>
    if k' = k then (k, v) :: rest else (k', v') :: setKey rest k v

/-- One level update `(p, q)`: zero quantity removes the key, otherwise the
key is set (normalize_l2.py lines 78-88, one side). -/
def applyLevel (m : List (ℤ × ℤ)) (e : ℤ × ℤ) : List (ℤ × ℤ) :=
  if e.2 = 0 then eraseKey m e.1 else setKey m e.1 e.2

/-- Fold of one side's level updates in arrival order. -/
def applyLevels (m : List (ℤ × ℤ)) (ls : List (ℤ × ℤ)) : List (ℤ × ℤ) :=
  ls.foldl applyLevel m

/-- Normalized depth delta: the fields the processing loop reads.  Identity
and timestamp fields are carried through the pipeline verbatim and are not
referenced by any claim, so they are omitted from the model. -/
structure Delta where
  U : ℤ
  u : ℤ
  b : List (ℤ × ℤ)
  a : List (ℤ × ℤ)
deriving DecidableEq

/-- The two sides of the book (normalize_l2.py lines 72-75). -/
structure TopBook where
  bids : List (ℤ × ℤ)
  asks : List (ℤ × ℤ)
deriving DecidableEq

/-- Fresh book created by `TopBook.__init__`. -/
def TopBook.init : TopBook := ⟨[], []⟩

/-- Model of `TopBook.apply` (normalize_l2.py lines 77-88). -/
def TopBook.apply (bk : TopBook) (d : Delta) : TopBook :=
  ⟨applyLevels bk.bids d.b, applyLevels bk.asks d.a⟩

/-- Maximum key of a nonempty dict (`max(self.bids)`); 0 on the empty dict,
where it is never used. -/
def maxKey : List (ℤ × ℤ) → ℤ
  | [] => 0
  | [e] => e.1
  | e :: f :: rest => max e.1 (maxKey (f :: rest))

/-- Minimum key of a nonempty dict (`min(self.asks)`); 0 on the empty dict,
where it is never used. -/
def minKey : List (ℤ × ℤ) → ℤ
  | [] => 0
  | [e] => e.1
  | e :: f :: rest => min e.1 (minKey (f :: rest))

/-- Model of `TopBook.best` (normalize_l2.py lines 90-95). -/
def TopBook.best (bk : TopBook) : Option (ℤ × ℤ × ℤ × ℤ) :=
  if bk.bids = [] ∨ bk.asks = [] then none
  else
    let best_bid := maxKey bk.bids
    let best_ask := minKey bk.asks
    some (best_bid, (lookupKey bk.bids best_bid).getD 0,
          best_ask, (lookupKey bk.asks best_ask).getD 0)

/-- Model of `mid_fp` (line 98-99); Python `//` is flooring division. -/
def mid_fp (bid ask : ℤ) : ℤ := (bid + ask).fdiv 2

/-- Model of `micro_fp` (lines 102-107). -/
def micro_fp (bid bid_sz ask ask_sz : ℤ) : ℤ :=
  let den := bid_sz + ask_sz
  if den ≤ 0 then mid_fp bid ask
  else (ask * bid_sz + bid * ask_sz).fdiv den

/-! ## Audit and per-file processing loop (normalize_l2.py lines 114-242) -/

/-- First-gap detail recorded at normalize_l2.py lines 197-202. -/
structure Gap where
  prev_u : Option ℤ
  U : ℤ
  u : ℤ
  line : ℕ
deriving DecidableEq

/-- The `Audit` dataclass (lines 114-123) with its default field values. -/
structure Audit where
  raw_lines : ℕ := 0
  kept_lines : ℕ := 0
  bad_json : ℕ := 0
  skipped_schema : ℕ := 0
  normalize_errors : ℕ := 0
  continuity_ok : Bool := true
  gaps : ℕ := 0
  first_gap : Option Gap := none
deriving DecidableEq

/-- One record of the price output stream (lines 214-229); passthrough
identity/timestamp/scale fields omitted as in `Delta`. -/
structure Px where
  best_bid : ℤ
  bid_sz : ℤ
  best_ask : ℤ
  ask_sz : ℤ
  mid : ℤ
  micro : ℤ
deriving DecidableEq

/-- Classification outcome of one raw input line by the three guarded steps
of the loop: `orjson.loads` raised, `is_depth_delta` returned False,
`normalize_delta` raised, or a successfully normalized delta. -/
inductive LineResult where
  | badJson
  | badSchema
  | normError
  | ok (d : Delta)
deriving DecidableEq

/-- In-memory state of one raw-file pass: audit counters, book, continuity
baseline, and the two output streams written so far. -/
structure PassState where
  audit : Audit
  book : TopBook
  prev_u : Option ℤ
  norm_out : List Delta
  px_out : List Px
deriving DecidableEq

/-- State at the top of the per-file loop (lines 162-164: fresh audit, fresh
book, `prev_u = None`, and freshly truncated output files). -/
def initPass : PassState := ⟨{}, TopBook.init, none, [], []⟩

/-- Model of one iteration of the per-line loop (lines 171-229). -/
def processLine (st : PassState) (l : LineResult) : PassState :=
  let a0 := { st.audit with raw_lines := st.audit.raw_lines + 1 }
  match l with
  | .badJson => { st with audit := { a0 with bad_json := a0.bad_json + 1 } }
  | .badSchema => { st with audit := { a0 with skipped_schema := a0.skipped_schema + 1 } }
  | .normError => { st with audit := { a0 with normalize_errors := a0.normalize_errors + 1 } }
  | .ok d =>
    let a1 := { a0 with kept_lines := a0.kept_lines + 1 }
    let cok := continuity_ok st.prev_u d.U d.u
    let a2 :=
      if cok then a1
      else
        { a1 with
          continuity_ok := false
          gaps := a1.gaps + 1
          first_gap :=
            if a1.first_gap.isNone then some ⟨st.prev_u, d.U, d.u, a1.raw_lines⟩
            else a1.first_gap }
    let prev2 : Option ℤ := if cok then some d.u else none
    let norm2 := st.norm_out ++ [d]
    let book2 := st.book.apply d
    match book2.best with
    | none => ⟨a2, book2, prev2, norm2, st.px_out⟩
    | some (bid, bid_sz, ask, ask_sz) =>
      ⟨a2, book2, prev2, norm2,
        st.px_out ++ [⟨bid, bid_sz, ask, ask_sz, mid_fp bid ask,
                       micro_fp bid bid_sz ask ask_sz⟩]⟩

/-- Full pass over one raw file's classified lines. -/
def processFile (ls : List LineResult) : PassState :=
  ls.foldl processLine initPass

/-- The three on-disk outputs of one raw file (`none` = file absent). -/
structure OutFiles where
  norm : Option (List Delta)
  prices : Option (List Px)
  audit : Option Audit
deriving DecidableEq

/-- Model of the per-file body of `process_raw_dir` (lines 152-242): skip
when all three outputs exist, otherwise reprocess and overwrite all three
(the outputs are opened with truncating modes). -/
def runPass (fs : OutFiles) (ls : List LineResult) : OutFiles :=
  if fs.norm.isSome && fs.prices.isSome && fs.audit.isSome then fs
  else
    let st := processFile ls
    ⟨some st.norm_out, some st.px_out, some st.audit⟩

/-! ## Rotating durable writer (rotating_jsonl_writer.py) -/

/-- Opaque byte payload of one written line. -/
abbrev Line := String

/-- The `WriteItem` dataclass (rotating_jsonl_writer.py lines 20-23). -/
structure WriteItem where
  bucket : ℤ
  line : Line
deriving DecidableEq

/-- `BATCH_SIZE` (line 12). -/
def BATCH_SIZE : ℕ := 2000

/-- `FLUSH_INTERVAL_SEC` (line 13). -/
def FLUSH_INTERVAL_SEC : ℚ := 1 / 2

/-- Writer state (lines 36-52).  `fp` records whether a file handle is open;
`filename_fn` is the constructor's bucket-to-filename callback. -/
structure RotatingJSONLWriter where
  filename_fn : ℤ → String
  current_bucket : Option ℤ
  fp : Bool
  tmp_path : Option String
  final_path : Option String
  buffer : List Line
  last_flush : ℚ

/-- The writer's output directory: contents of `name.tmp` files (keyed by
`name`) and of final `name` files. -/
structure DirState where
  tmp : String → Option (List Line)
  final : String → Option (List Line)

/-- Writer plus the directory it writes into. -/
structure WSys where
  w : RotatingJSONLWriter
  fs : DirState

/-- `__init__` (lines 36-52); `t0` is the construction-time clock read
stored in `last_flush`. -/
def initWriter (fn : ℤ → String) (t0 : ℚ) : RotatingJSONLWriter :=
  ⟨fn, none, false, none, none, [], t0⟩

/-- Directory with no files. -/
def emptyDir : DirState := ⟨fun _ => none, fun _ => none⟩

/-- Fresh writer over an empty directory. -/
def mkWSys (fn : ℤ → String) (t0 : ℚ) : WSys := ⟨initWriter fn t0, emptyDir⟩

/-- Model of `_open_for_bucket` (lines 54-60): the temp file is opened in
append mode (`"ab"`), so it is created empty if absent and its existing
bytes are preserved if present. -/
def openForBucket (s : WSys) (bucket : ℤ) : WSys :=
  let name := s.w.filename_fn bucket
  { w := { s.w with
             final_path := some name
             tmp_path := some name
             fp := true
             current_bucket := some bucket }
    fs := { s.fs with
             tmp := fun n =>
               if n = name then some ((s.fs.tmp name).getD []) else s.fs.tmp n } }

/-- Model of `_close_and_finalize` (lines 62-77): no-op when no handle is
open; otherwise append the remaining buffer to the temp file, flush, close,
and atomically rename the temp file onto the final name. -/
def closeAndFinalize (s : WSys) : WSys :=
  if s.w.fp then
    match s.w.tmp_path, s.w.final_path with
    | some tn, some fnm =>
      let content := (s.fs.tmp tn).getD [] ++ s.w.buffer
      { w := { s.w with
                 fp := false
                 current_bucket := none
                 tmp_path := none
                 final_path := none
                 buffer := [] }
        fs := { tmp := fun n => if n = tn then none else s.fs.tmp n
                final := fun n => if n = fnm then some content else s.fs.final n } }
    | _, _ => s
  else s

/-- Buffer append plus the batching policy of `write` (lines 84-91): flush
the whole buffer to the temp file when the size threshold or the elapsed
time threshold is reached. -/
def appendAndMaybeFlush (s : WSys) (now : ℚ) (l : Line) : WSys :=
  let s2 : WSys := { s with w := { s.w with buffer := s.w.buffer ++ [l] } }
  if BATCH_SIZE ≤ s2.w.buffer.length ∨ FLUSH_INTERVAL_SEC ≤ now - s2.w.last_flush then
    match s2.w.tmp_path with
    | some tn =>
      { w := { s2.w with
                 buffer := []
                 last_flush := now }
        fs := { s2.fs with
                 tmp := fun n =>
                   if n = tn then some ((s2.fs.tmp tn).getD [] ++ s2.w.buffer)
                   else s2.fs.tmp n } }
    | none => s2
  else s2

/-- Model of `write(item)` (lines 79-91): on a bucket change (or when no
bucket is open) finalize the current bucket and open the new one, then
append the line and apply the batching policy. -/
def writeW (s : WSys) (now : ℚ) (item : WriteItem) : WSys :=
  let s1 :=
    if s.w.current_bucket = none ∨ s.w.current_bucket ≠ some item.bucket then
      openForBucket (closeAndFinalize s) item.bucket
    else s
  appendAndMaybeFlush s1 now item.line

/-- Model of `close()` (lines 93-94). -/
def closeW (s : WSys) : WSys := closeAndFinalize s

/-- A sequence of `write` calls, each with its wall-clock time. -/
def runWrites (s : WSys) (ws : List (ℚ × WriteItem)) : WSys :=
  ws.foldl (fun acc tw => writeW acc tw.1 tw.2) s

/-! ## Specification-side definitions used to state the claims -/

/-- Most recent quantity seen for price `p` in a stream of level updates
(later updates override earlier ones). -/
def lastSeen : List (ℤ × ℤ) → ℤ → Option ℤ
  | [], _ => none
  | e :: rest, p =>
    match lastSeen rest p with
    | some r => some r
    | none => if e.1 = p then some e.2 else none

/-- All bid level updates of a delta sequence, in arrival order. -/
def bidUpdates (ds : List Delta) : List (ℤ × ℤ) := (ds.map Delta.b).flatten

/-- All ask level updates of a delta sequence, in arrival order. -/
def askUpdates (ds : List Delta) : List (ℤ × ℤ) := (ds.map Delta.a).flatten

/-- Book obtained by applying a delta sequence to the fresh book. -/
def applyAll (ds : List Delta) : TopBook := ds.foldl TopBook.apply TopBook.init

/-- The writer has bucket `b` open with temp and final name `nm`. -/
def WSys.openOn (s : WSys) (b : ℤ) (nm : String) : Prop :=
  s.w.current_bucket = some b ∧ s.w.fp = true ∧
  s.w.tmp_path = some nm ∧ s.w.final_path = some nm

/-- Bytes of bucket data accumulated so far: on-disk temp file content
followed by the in-memory buffer. -/
def tmpContent (s : WSys) (nm : String) : List Line :=
  (s.fs.tmp nm).getD [] ++ s.w.buffer

/-! ## Theorems -/

/-- Claim C3: the continuity checker accepts unconditionally when the
baseline is undefined; with a defined baseline it accepts exactly when
`U ≤ prev_u + 1 ≤ u`; in particular `continuity_ok 5 6 10` holds and
`continuity_ok 5 7 10` fails. -/
theorem C3_continuity_ok :
    (∀ U u : ℤ, continuity_ok none U u = true) ∧
    (∀ p U u : ℤ, continuity_ok (some p) U u = true ↔ (U ≤ p + 1 ∧ p + 1 ≤ u)) ∧
    continuity_ok (some 5) 6 10 = true ∧
    continuity_ok (some 5) 7 10 = false := by
  refine ⟨fun U u => rfl, fun p U u => ?_, by decide, by decide⟩
  simp [continuity_ok]

/-- Half-even rounding of a quotient is within a half of the exact value. -/
theorem roundHalfEvenDiv_half (a b : ℕ) (hb : 0 < b) :
    |(a : ℚ) / (b : ℚ) - (roundHalfEvenDiv a b : ℚ)| ≤ 1 / 2 := by
  have hbQ : (0 : ℚ) < (b : ℚ) := by exact_mod_cast hb
  have hqr : b * (a / b) + a % b = a := Nat.div_add_mod a b
  have ha : (a : ℚ) = (b : ℚ) * ((a / b : ℕ) : ℚ) + ((a % b : ℕ) : ℚ) := by
    exact_mod_cast hqr.symm
  have hrb : a % b < b := Nat.mod_lt a hb
  have hr0 : (0 : ℚ) ≤ ((a % b : ℕ) : ℚ) := by positivity
  have keyq : (a : ℚ) / b - ((a / b : ℕ) : ℚ) = ((a % b : ℕ) : ℚ) / b := by
    rw [ha]; field_simp
  have keyq1 : (a : ℚ) / b - (((a / b : ℕ) : ℚ) + 1) = (((a % b : ℕ) : ℚ) - b) / b := by
    rw [ha]; field_simp; ring
  unfold roundHalfEvenDiv
  split_ifs with h1 h2 h3
  · rw [keyq, abs_of_nonneg (by positivity), div_le_iff₀ hbQ]
    have h2r : (2 : ℚ) * ((a % b : ℕ) : ℚ) ≤ (b : ℚ) := by exact_mod_cast h1.le
    linarith
  · have hcast : ((a / b + 1 : ℕ) : ℚ) = ((a / b : ℕ) : ℚ) + 1 := by push_cast; ring
    rw [hcast, keyq1]
    have hble : (b : ℚ) ≤ 2 * ((a % b : ℕ) : ℚ) := by exact_mod_cast h2.le
    rw [abs_of_nonpos (by
      apply div_nonpos_of_nonpos_of_nonneg _ (le_of_lt hbQ)
      have : ((a % b : ℕ) : ℚ) < (b : ℚ) := by exact_mod_cast hrb
      linarith)]
    rw [← neg_div, neg_sub, div_le_iff₀ hbQ]
    linarith
  · rw [keyq, abs_of_nonneg (by positivity), div_le_iff₀ hbQ]
    have h2r : (2 : ℚ) * ((a % b : ℕ) : ℚ) ≤ (b : ℚ) := by
      exact_mod_cast le_of_not_lt h2
    linarith
  · have hcast : ((a / b + 1 : ℕ) : ℚ) = ((a / b : ℕ) : ℚ) + 1 := by push_cast; ring
    rw [hcast, keyq1]
    have hble : (b : ℚ) ≤ 2 * ((a % b : ℕ) : ℚ) := by
      exact_mod_cast le_of_not_lt h1
    rw [abs_of_nonpos (by
      apply div_nonpos_of_nonpos_of_nonneg _ (le_of_lt hbQ)
      have : ((a % b : ℕ) : ℚ) < (b : ℚ) := by exact_mod_cast hrb
      linarith)]
    rw [← neg_div, neg_sub, div_le_iff₀ hbQ]
    linarith

/-- The rounded integral value of a finite decimal is within a half of it. -/
theorem Dec.toIntegralExact_half (d : Dec) :
    |d.toRat - (d.toIntegralExact : ℚ)| ≤ 1 / 2 := by
  have key : |d.toRat - (d.toIntegralExact : ℚ)| =
      |(d.coeff : ℚ) * (10 : ℚ) ^ d.exp - ((d.magNat : ℕ) : ℚ)| := by
    unfold Dec.toRat Dec.toIntegralExact
    cases hneg : d.neg
    · simp
    · rw [if_pos rfl, if_pos rfl]
      rw [show (-1 : ℚ) * (d.coeff : ℚ) * (10 : ℚ) ^ d.exp -
          ((-(d.magNat : ℤ) : ℤ) : ℚ) =
          -((d.coeff : ℚ) * (10 : ℚ) ^ d.exp - ((d.magNat : ℕ) : ℚ)) from by
        push_cast; ring]
      rw [abs_neg]
  rw [key]
  by_cases he : 0 ≤ d.exp
  · have hmag0 : d.magNat = d.coeff * 10 ^ d.exp.toNat := by
      unfold Dec.magNat; rw [if_pos he]
    have hz : (10 : ℚ) ^ d.exp = (10 : ℚ) ^ d.exp.toNat := by
      conv_lhs => rw [← Int.toNat_of_nonneg he]
      rw [zpow_natCast]
    rw [hmag0, hz]
    push_cast
    rw [sub_self, abs_zero]
    norm_num
  · have he' : d.exp < 0 := lt_of_not_ge he
    have hmag1 : d.magNat = roundHalfEvenDiv d.coeff (10 ^ (-d.exp).toNat) := by
      unfold Dec.magNat; rw [if_neg he]
    have hb : 0 < 10 ^ (-d.exp).toNat := pow_pos (by norm_num) _
    have main := roundHalfEvenDiv_half d.coeff (10 ^ (-d.exp).toNat) hb
    have h10 : (10 : ℚ) ^ d.exp = (((10 ^ (-d.exp).toNat : ℕ) : ℚ))⁻¹ := by
      have hBe : d.exp = -(((-d.exp).toNat : ℕ) : ℤ) := by
        rw [Int.toNat_of_nonneg (by omega : (0 : ℤ) ≤ -d.exp)]; ring
      conv_lhs => rw [hBe]
      rw [zpow_neg, zpow_natCast]
      norm_cast
    rw [hmag1, h10]
    rw [show (d.coeff : ℚ) * (((10 ^ (-d.exp).toNat : ℕ) : ℚ))⁻¹ =
        (d.coeff : ℚ) / ((10 ^ (-d.exp).toNat : ℕ) : ℚ) from by ring]
    exact main

/-- An integer within a half of a rational is as close to it as any other
integer. -/
theorem int_nearest_of_half (x : ℚ) (r m : ℤ) (h : |x - (r : ℚ)| ≤ 1 / 2) :
    |x - (r : ℚ)| ≤ |x - (m : ℚ)| := by
  by_cases hm : m = r
  · rw [hm]
  · have hne : r - m ≠ 0 := sub_ne_zero.mpr fun hh => hm hh.symm
    have h1 : (1 : ℚ) ≤ |((r - m : ℤ) : ℚ)| := by
      rw [← Int.cast_abs]
      exact_mod_cast Int.one_le_abs hne
    have h1q : (1 : ℚ) ≤ |(r : ℚ) - (m : ℚ)| := by push_cast at h1; exact h1
    have htri : |(r : ℚ) - (m : ℚ)| ≤ |(r : ℚ) - x| + |x - (m : ℚ)| :=
      abs_sub_le _ _ _
    have hcomm : |(r : ℚ) - x| = |x - (r : ℚ)| := abs_sub_comm _ _
    linarith

/-- Claim C2 (amended): `to_fp` fails on strings that are not valid decimal
numerals, and also on valid numerals whose product overflows the context's
exponent ceiling (`Emax = 999999`, `Overflow` trapped), e.g. `1e1000000`
at scale `10^8`; on valid numerals whose exact product coefficient fits in
the 50 significant digits of the module's decimal context and whose product
stays within `Emax`, it returns the integer nearest to `s × k` (ties
resolved to even), computed by exact decimal arithmetic; in particular the
flagship example holds.  (Without the coefficient-size bound the claim
fails: see the counterexample.) -/
theorem C2_to_fp_exact_within_prec :
    (∀ (s : String) (k : ℕ), parseDec s = none → to_fp s k = none) ∧
    to_fp ("1.00000001") (10 ^ 8) = some 100000001 ∧
    to_fp ("1e1000000") (10 ^ 8) = none ∧
    (∀ (s : String) (d : Dec) (n : ℕ), parseDec s = some d →
      d.coeff * 10 ^ n < 10 ^ DEC_PREC →
      Dec.adjusted ⟨d.neg, d.coeff * 10 ^ n, d.exp⟩ ≤ EMAX →
      ∃ r : ℤ, to_fp s (10 ^ n) = some r ∧
        ∀ m : ℤ, |d.toRat * ((10 ^ n : ℕ) : ℚ) - (r : ℚ)| ≤
                 |d.toRat * ((10 ^ n : ℕ) : ℚ) - (m : ℚ)|) := by
  refine ⟨fun s k h => by simp [to_fp, h], by decide, by decide, ?_⟩
  intro s d n hparse hsize hadj
  have hraw : d.mulRaw (10 ^ n) = ⟨d.neg, d.coeff * 10 ^ n, d.exp⟩ := by
    unfold Dec.mulRaw
    rw [if_pos hsize]
  have hmul : d.mulNat (10 ^ n) = some ⟨d.neg, d.coeff * 10 ^ n, d.exp⟩ := by
    unfold Dec.mulNat
    rw [hraw, if_neg]
    rintro ⟨-, hlt⟩
    exact absurd hlt (not_lt.mpr hadj)
  refine ⟨(Dec.mk d.neg (d.coeff * 10 ^ n) d.exp).toIntegralExact, ?_, ?_⟩
  · simp [to_fp, hparse, hmul]
  · intro m
    have hprod : (Dec.mk d.neg (d.coeff * 10 ^ n) d.exp).toRat =
        d.toRat * ((10 ^ n : ℕ) : ℚ) := by
      unfold Dec.toRat
      push_cast
      ring
    rw [← hprod]
    exact int_nearest_of_half _ _ m
      ((Dec.mk d.neg (d.coeff * 10 ^ n) d.exp).toIntegralExact_half)

/-- Claim C2 witness: a concrete instantiation of the amended exactness
statement at the decimal string 2.5 with scale 1. -/
theorem C2_to_fp_witness :
    parseDec ("2.5") = some ⟨false, 25, -1⟩ ∧
    25 * 10 ^ 0 < 10 ^ DEC_PREC ∧
    Dec.adjusted ⟨false, 25 * 10 ^ 0, -1⟩ ≤ EMAX ∧
    (∃ r : ℤ, to_fp ("2.5") (10 ^ 0) = some r ∧
      ∀ m : ℤ, |(Dec.mk false 25 (-1)).toRat * ((10 ^ 0 : ℕ) : ℚ) - (r : ℚ)| ≤
               |(Dec.mk false 25 (-1)).toRat * ((10 ^ 0 : ℕ) : ℚ) - (m : ℚ)|) :=
  ⟨by decide, by decide, by decide,
   C2_to_fp_exact_within_prec.2.2.2 ("2.5") ⟨false, 25, -1⟩ 0 (by decide) (by decide)
     (by decide)⟩

/-- Claim C2 counterexample: for the 51-digit decimal string of all ones and
scale 10^8, the exact value of `s × k` is an integer, yet `to_fp` returns a
different integer, because the exact 59-digit product coefficient is rounded
to the 50 significant digits of the module's decimal context.  So `to_fp`
does not return "the exact integer nearest to s × k" for every decimal
string. -/
theorem C2_to_fp_counterexample :
    parseDec ("111111111111111111111111111111111111111111111111111") =
      some ⟨false, 111111111111111111111111111111111111111111111111111, 0⟩ ∧
    (Dec.mk false 111111111111111111111111111111111111111111111111111 0).toRat *
        ((10 ^ 8 : ℕ) : ℚ) =
      ((11111111111111111111111111111111111111111111111111100000000 : ℤ) : ℚ) ∧
    to_fp ("111111111111111111111111111111111111111111111111111") (10 ^ 8) =
      some 11111111111111111111111111111111111111111111111111000000000 ∧
    (11111111111111111111111111111111111111111111111111000000000 : ℤ) ≠
      11111111111111111111111111111111111111111111111111100000000 := by
  refine ⟨by decide, ?_, by decide, by decide⟩
  unfold Dec.toRat
  norm_num

/-- Lookup after dict deletion. -/
theorem lookupKey_eraseKey (m : List (ℤ × ℤ)) (k p : ℤ) :
    lookupKey (eraseKey m k) p = if p = k then none else lookupKey m p := by
  induction m with
  | nil => simp [eraseKey, lookupKey]
  | cons e rest ih =>
    obtain ⟨ek, ev⟩ := e
    by_cases hek : ek = k
    · rw [show eraseKey ((ek, ev) :: rest) k = eraseKey rest k from by
        simp [eraseKey, List.filter_cons, hek]]
      rw [ih]
      rw [show lookupKey ((ek, ev) :: rest) p =
          if ek = p then some ev else lookupKey rest p from rfl]
      split_ifs <;> first | rfl | (exfalso; omega)
    · rw [show eraseKey ((ek, ev) :: rest) k = (ek, ev) :: eraseKey rest k from by
        simp [eraseKey, List.filter_cons, hek]]
      rw [show lookupKey ((ek, ev) :: eraseKey rest k) p =
          if ek = p then some ev else lookupKey (eraseKey rest k) p from rfl]
      rw [ih]
      rw [show lookupKey ((ek, ev) :: rest) p =
          if ek = p then some ev else lookupKey rest p from rfl]
      split_ifs <;> first | rfl | (exfalso; omega)

/-- Lookup after dict assignment. -/
theorem lookupKey_setKey (m : List (ℤ × ℤ)) (k v p : ℤ) :
    lookupKey (setKey m k v) p = if p = k then some v else lookupKey m p := by
  induction m with
  | nil =>
    rw [show setKey [] k v = [(k, v)] from rfl]
    rw [show lookupKey [(k, v)] p = if k = p then some v else lookupKey [] p from rfl]
    rw [show lookupKey ([] : List (ℤ × ℤ)) p = none from rfl]
    split_ifs <;> first | rfl | (exfalso; omega)
  | cons e rest ih =>
    obtain ⟨ek, ev⟩ := e
    by_cases hek : ek = k
    · rw [show setKey ((ek, ev) :: rest) k v = (k, v) :: rest from by
        simp [setKey, hek]]
      rw [show lookupKey ((k, v) :: rest) p =
          if k = p then some v else lookupKey rest p from rfl]
      rw [show lookupKey ((ek, ev) :: rest) p =
          if ek = p then some ev else lookupKey rest p from rfl]
      split_ifs <;> first | rfl | (exfalso; omega)
    · rw [show setKey ((ek, ev) :: rest) k v = (ek, ev) :: setKey rest k v from by
        simp [setKey, hek]]
      rw [show lookupKey ((ek, ev) :: setKey rest k v) p =
          if ek = p then some ev else lookupKey (setKey rest k v) p from rfl]
      rw [ih]
      rw [show lookupKey ((ek, ev) :: rest) p =
          if ek = p then some ev else lookupKey rest p from rfl]
      split_ifs <;> first | rfl | (exfalso; omega)

/-- Lookup after one level update. -/
theorem lookupKey_applyLevel (m : List (ℤ × ℤ)) (e : ℤ × ℤ) (p : ℤ) :
    lookupKey (applyLevel m e) p =
      if e.1 = p then (if e.2 = 0 then none else some e.2) else lookupKey m p := by
  unfold applyLevel
  by_cases hq : e.2 = 0
  · rw [if_pos hq, lookupKey_eraseKey, if_pos hq]
    split_ifs <;> first | rfl | (exfalso; omega)
  · rw [if_neg hq, lookupKey_setKey, if_neg hq]
    split_ifs <;> first | rfl | (exfalso; omega)

/-- Lookup after a run of level updates is decided by the most recent
update of that price, falling back to the starting dict. -/
theorem lookupKey_applyLevels (ls : List (ℤ × ℤ)) : ∀ (m : List (ℤ × ℤ)) (p : ℤ),
    lookupKey (applyLevels m ls) p =
      ((lastSeen ls p).elim (lookupKey m p) fun q => if q = 0 then none else some q) := by
  induction ls with
  | nil => intro m p; simp [applyLevels, lastSeen]
  | cons e rest ih =>
    intro m p
    rw [show applyLevels m (e :: rest) = applyLevels (applyLevel m e) rest from rfl, ih]
    rw [show lastSeen (e :: rest) p = (match lastSeen rest p with
        | some r => some r
        | none => if e.1 = p then some e.2 else none) from rfl]
    cases h : lastSeen rest p
    · by_cases hep : e.1 = p <;>
        simp [h, hep, lookupKey_applyLevel]
    · simp [h]

/-- Applying a concatenation of update runs is sequential application. -/
theorem applyLevels_append (m : List (ℤ × ℤ)) (l1 l2 : List (ℤ × ℤ)) :
    applyLevels m (l1 ++ l2) = applyLevels (applyLevels m l1) l2 := by
  simp [applyLevels, List.foldl_append]

/-- Folding a delta list applies the flattened per-side updates. -/
theorem foldl_apply_sides (ds : List Delta) : ∀ bk : TopBook,
    (ds.foldl TopBook.apply bk).bids = applyLevels bk.bids (bidUpdates ds) ∧
    (ds.foldl TopBook.apply bk).asks = applyLevels bk.asks (askUpdates ds) := by
  induction ds with
  | nil => intro bk; simp [bidUpdates, askUpdates, applyLevels]
  | cons d rest ih =>
    intro bk
    have hb : bidUpdates (d :: rest) = d.b ++ bidUpdates rest := by
      simp [bidUpdates]
    have ha : askUpdates (d :: rest) = d.a ++ askUpdates rest := by
      simp [askUpdates]
    rw [show (d :: rest).foldl TopBook.apply bk =
        rest.foldl TopBook.apply (bk.apply d) from rfl, hb, ha,
      applyLevels_append, applyLevels_append]
    exact ⟨(ih (bk.apply d)).1, (ih (bk.apply d)).2⟩

/-- Claim C5: after any finite sequence of `TopBook.apply` calls from the
empty book, a price key stores the most recent nonzero quantity seen for it
on that side, and a price most recently seen with quantity zero (or never
seen) is absent from that side. -/
theorem C5_topbook_invariant (ds : List Delta) (p : ℤ) :
    lookupKey (applyAll ds).bids p =
      ((lastSeen (bidUpdates ds) p).bind fun q => if q = 0 then none else some q) ∧
    lookupKey (applyAll ds).asks p =
      ((lastSeen (askUpdates ds) p).bind fun q => if q = 0 then none else some q) := by
  have h := foldl_apply_sides ds TopBook.init
  constructor
  · rw [show applyAll ds = ds.foldl TopBook.apply TopBook.init from rfl, h.1,
      lookupKey_applyLevels]
    cases hl : lastSeen (bidUpdates ds) p <;> simp [hl, TopBook.init, lookupKey]
  · rw [show applyAll ds = ds.foldl TopBook.apply TopBook.init from rfl, h.2,
      lookupKey_applyLevels]
    cases hl : lastSeen (askUpdates ds) p <;> simp [hl, TopBook.init, lookupKey]

/-- The maximum key of a nonempty dict is one of its keys. -/
theorem maxKey_mem : ∀ (m : List (ℤ × ℤ)), m ≠ [] → maxKey m ∈ m.map Prod.fst := by
  intro m
  induction m with
  | nil => intro h; exact absurd rfl h
  | cons e rest ih =>
    intro _
    cases rest with
    | nil => simp [maxKey]
    | cons f rs =>
      rw [show maxKey (e :: f :: rs) = max e.1 (maxKey (f :: rs)) from rfl]
      rcases le_total e.1 (maxKey (f :: rs)) with hle | hle
      · rw [max_eq_right hle]
        exact List.mem_cons_of_mem _ (ih (by simp))
      · rw [max_eq_left hle]
        simp only [List.map_cons, List.mem_cons]
        exact Or.inl trivial

/-- Every key of a dict is at most its maximum key. -/
theorem le_maxKey : ∀ (m : List (ℤ × ℤ)) (p : ℤ), p ∈ m.map Prod.fst → p ≤ maxKey m := by
  intro m
  induction m with
  | nil => intro p hp; simp at hp
  | cons e rest ih =>
    intro p hp
    cases rest with
    | nil =>
      simp only [List.map_cons, List.map_nil, List.mem_cons, List.not_mem_nil,
        or_false] at hp
      rw [hp, show maxKey [e] = e.1 from rfl]
    | cons f rs =>
      rw [show maxKey (e :: f :: rs) = max e.1 (maxKey (f :: rs)) from rfl]
      simp only [List.map_cons, List.mem_cons] at hp
      rcases hp with hp | hp
      · rw [hp]; exact le_max_left _ _
      · exact le_trans (ih p (by simpa using hp)) (le_max_right _ _)

/-- The minimum key of a nonempty dict is one of its keys. -/
theorem minKey_mem : ∀ (m : List (ℤ × ℤ)), m ≠ [] → minKey m ∈ m.map Prod.fst := by
  intro m
  induction m with
  | nil => intro h; exact absurd rfl h
  | cons e rest ih =>
    intro _
    cases rest with
    | nil => simp [minKey]
    | cons f rs =>
      rw [show minKey (e :: f :: rs) = min e.1 (minKey (f :: rs)) from rfl]
      rcases le_total e.1 (minKey (f :: rs)) with hle | hle
      · rw [min_eq_left hle]
        simp only [List.map_cons, List.mem_cons]
        exact Or.inl trivial
      · rw [min_eq_right hle]
        exact List.mem_cons_of_mem _ (ih (by simp))

/-- Every key of a dict is at least its minimum key. -/
theorem minKey_le : ∀ (m : List (ℤ × ℤ)) (p : ℤ), p ∈ m.map Prod.fst → minKey m ≤ p := by
  intro m
  induction m with
  | nil => intro p hp; simp at hp
  | cons e rest ih =>
    intro p hp
    cases rest with
    | nil =>
      simp only [List.map_cons, List.map_nil, List.mem_cons, List.not_mem_nil,
        or_false] at hp
      rw [hp, show minKey [e] = e.1 from rfl]
    | cons f rs =>
      rw [show minKey (e :: f :: rs) = min e.1 (minKey (f :: rs)) from rfl]
      simp only [List.map_cons, List.mem_cons] at hp
      rcases hp with hp | hp
      · rw [hp]; exact min_le_left _ _
      · exact le_trans (min_le_right _ _) (ih p (by simpa using hp))

/-- A key of a dict always has a stored value. -/
theorem lookupKey_isSome_of_mem :
    ∀ (m : List (ℤ × ℤ)) (p : ℤ), p ∈ m.map Prod.fst → ∃ v, lookupKey m p = some v := by
  intro m
  induction m with
  | nil => intro p hp; simp at hp
  | cons e rest ih =>
    intro p hp
    by_cases hep : e.1 = p
    · exact ⟨e.2, by
        rw [show lookupKey (e :: rest) p =
            if e.1 = p then some e.2 else lookupKey rest p from rfl, if_pos hep]⟩
    · simp only [List.map_cons, List.mem_cons] at hp
      rcases hp with hp | hp
      · exact absurd hp.symm hep
      · obtain ⟨v, hv⟩ := ih p (by simpa using hp)
        exact ⟨v, by
          rw [show lookupKey (e :: rest) p =
              if e.1 = p then some e.2 else lookupKey rest p from rfl, if_neg hep, hv]⟩

/-- Claim C6: `best()` is `none` exactly when a side is empty; otherwise it
pairs the maximum bid key and minimum ask key with their stored quantities;
`mid` is the floor of `(bid + ask) / 2`; `micro` is the floor of
`(ask·bid_sz + bid·ask_sz) / (bid_sz + ask_sz)`, falling back to `mid`
when the denominator is nonpositive. -/
theorem C6_best_mid_micro :
    (∀ bk : TopBook, bk.best = none ↔ (bk.bids = [] ∨ bk.asks = [])) ∧
    (∀ (bk : TopBook) (bb bq ba aq : ℤ), bk.best = some (bb, bq, ba, aq) →
      bb ∈ bk.bids.map Prod.fst ∧ (∀ p ∈ bk.bids.map Prod.fst, p ≤ bb) ∧
      lookupKey bk.bids bb = some bq ∧
      ba ∈ bk.asks.map Prod.fst ∧ (∀ p ∈ bk.asks.map Prod.fst, ba ≤ p) ∧
      lookupKey bk.asks ba = some aq) ∧
    (∀ bid ask : ℤ,
      2 * mid_fp bid ask ≤ bid + ask ∧ bid + ask < 2 * (mid_fp bid ask + 1)) ∧
    (∀ bid bid_sz ask ask_sz : ℤ, bid_sz + ask_sz ≤ 0 →
      micro_fp bid bid_sz ask ask_sz = mid_fp bid ask) ∧
    (∀ bid bid_sz ask ask_sz : ℤ, 0 < bid_sz + ask_sz →
      (bid_sz + ask_sz) * micro_fp bid bid_sz ask ask_sz ≤
        ask * bid_sz + bid * ask_sz ∧
      ask * bid_sz + bid * ask_sz <
        (bid_sz + ask_sz) * (micro_fp bid bid_sz ask ask_sz + 1)) := by
  refine ⟨?_, ?_, ?_, ?_, ?_⟩
  · intro bk
    unfold TopBook.best
    split_ifs with h
    · simp [h]
    · simp [h]
  · intro bk bb bq ba aq hbest
    by_cases h : bk.bids = [] ∨ bk.asks = []
    · rw [show bk.best = none from by unfold TopBook.best; rw [if_pos h]] at hbest
      exact absurd hbest (by simp)
    · have hbest2 : some (maxKey bk.bids, (lookupKey bk.bids (maxKey bk.bids)).getD 0,
          minKey bk.asks, (lookupKey bk.asks (minKey bk.asks)).getD 0) =
          some (bb, bq, ba, aq) := by
        rw [← hbest]
        unfold TopBook.best
        rw [if_neg h]
      push_neg at h
      obtain ⟨hbne, hane⟩ := h
      have h5 := Option.some.inj hbest2
      simp only [Prod.mk.injEq] at h5
      obtain ⟨h1, h2, h3, h4⟩ := h5
      obtain ⟨bv, hbv⟩ := lookupKey_isSome_of_mem bk.bids (maxKey bk.bids)
        (maxKey_mem bk.bids hbne)
      obtain ⟨av, hav⟩ := lookupKey_isSome_of_mem bk.asks (minKey bk.asks)
        (minKey_mem bk.asks hane)
      refine ⟨h1 ▸ maxKey_mem bk.bids hbne, ?_, ?_, h3 ▸ minKey_mem bk.asks hane, ?_, ?_⟩
      · intro p hp; exact h1 ▸ le_maxKey bk.bids p hp
      · rw [← h1, hbv]
        rw [hbv] at h2
        simp only [Option.getD_some] at h2
        rw [h2]
      · intro p hp; exact h3 ▸ minKey_le bk.asks p hp
      · rw [← h3, hav]
        rw [hav] at h4
        simp only [Option.getD_some] at h4
        rw [h4]
  · intro bid ask
    unfold mid_fp
    rw [Int.fdiv_eq_ediv _ (by norm_num)]
    have h1 := Int.ediv_add_emod (bid + ask) 2
    have h2 := Int.emod_nonneg (bid + ask) (by norm_num : (2 : ℤ) ≠ 0)
    have h3 := Int.emod_lt_of_pos (bid + ask) (by norm_num : (0 : ℤ) < 2)
    omega
  · intro bid bid_sz ask ask_sz h
    unfold micro_fp
    rw [if_pos h]
  · intro bid bid_sz ask ask_sz h
    unfold micro_fp
    rw [if_neg (not_le.mpr h), Int.fdiv_eq_ediv _ (le_of_lt h)]
    have h1 := Int.ediv_add_emod (ask * bid_sz + bid * ask_sz) (bid_sz + ask_sz)
    have h2 := Int.emod_nonneg (ask * bid_sz + bid * ask_sz) (ne_of_gt h)
    have h3 := Int.emod_lt_of_pos (ask * bid_sz + bid * ask_sz) h
    constructor
    · linarith
    · have hexp : (bid_sz + ask_sz) *
          ((ask * bid_sz + bid * ask_sz) / (bid_sz + ask_sz) + 1) =
          (bid_sz + ask_sz) * ((ask * bid_sz + bid * ask_sz) / (bid_sz + ask_sz)) +
          (bid_sz + ask_sz) := by ring
      rw [hexp]
      linarith

/-- Claim C6 witness: concrete instantiations on the book with one bid level
(100, 2) and one ask level (101, 3), and on degenerate micro denominators. -/
theorem C6_best_mid_micro_witness :
    ((100 : ℤ) ∈ (TopBook.mk [(100, 2)] [(101, 3)]).bids.map Prod.fst ∧
     (∀ p ∈ (TopBook.mk [(100, 2)] [(101, 3)]).bids.map Prod.fst, p ≤ 100) ∧
     lookupKey (TopBook.mk [(100, 2)] [(101, 3)]).bids 100 = some 2 ∧
     (101 : ℤ) ∈ (TopBook.mk [(100, 2)] [(101, 3)]).asks.map Prod.fst ∧
     (∀ p ∈ (TopBook.mk [(100, 2)] [(101, 3)]).asks.map Prod.fst, 101 ≤ p) ∧
     lookupKey (TopBook.mk [(100, 2)] [(101, 3)]).asks 101 = some 3) ∧
    micro_fp 100 0 101 0 = mid_fp 100 101 ∧
    ((0 : ℤ) + 5 * micro_fp 100 2 101 3 ≤ 0 + (101 * 2 + 100 * 3) ∧
     (101 * 2 + 100 * 3 : ℤ) < (2 + 3) * (micro_fp 100 2 101 3 + 1)) := by
  refine ⟨C6_best_mid_micro.2.1 ⟨[(100, 2)], [(101, 3)]⟩ 100 2 101 3 (by decide), ?_, ?_⟩
  · exact C6_best_mid_micro.2.2.2.1 100 0 101 0 (by decide)
  · have h := C6_best_mid_micro.2.2.2.2 100 2 101 3 (by decide)
    constructor
    · have := h.1
      omega
    · have := h.2
      omega

/-- One loop iteration advances `raw_lines` by one and exactly one of the
four outcome counters by one. -/
theorem processLine_counters (st : PassState) (l : LineResult) :
    (processLine st l).audit.raw_lines = st.audit.raw_lines + 1 ∧
    (processLine st l).audit.bad_json + (processLine st l).audit.skipped_schema +
      (processLine st l).audit.normalize_errors + (processLine st l).audit.kept_lines =
    st.audit.bad_json + st.audit.skipped_schema + st.audit.normalize_errors +
      st.audit.kept_lines + 1 := by
  cases l with
  | badJson => simp [processLine]; omega
  | badSchema => simp [processLine]; omega
  | normError => simp [processLine]; omega
  | ok d =>
    simp only [processLine]
    split <;> split <;> simp <;> omega

/-- Claim C7: after processing any raw file, the audit counters satisfy
`raw_lines = bad_json + skipped_schema + normalize_errors + kept_lines`,
and `raw_lines` counts exactly the physical input lines. -/
theorem C7_counter_invariant (ls : List LineResult) :
    (processFile ls).audit.raw_lines =
      (processFile ls).audit.bad_json + (processFile ls).audit.skipped_schema +
      (processFile ls).audit.normalize_errors + (processFile ls).audit.kept_lines ∧
    (processFile ls).audit.raw_lines = ls.length := by
  suffices h : ∀ (ls : List LineResult) (st : PassState),
      (ls.foldl processLine st).audit.raw_lines = st.audit.raw_lines + ls.length ∧
      (ls.foldl processLine st).audit.bad_json + (ls.foldl processLine st).audit.skipped_schema +
        (ls.foldl processLine st).audit.normalize_errors +
        (ls.foldl processLine st).audit.kept_lines =
      st.audit.bad_json + st.audit.skipped_schema + st.audit.normalize_errors +
        st.audit.kept_lines + ls.length by
    have h0 := h ls initPass
    have hinit : initPass.audit.raw_lines = 0 ∧ initPass.audit.bad_json = 0 ∧
        initPass.audit.skipped_schema = 0 ∧ initPass.audit.normalize_errors = 0 ∧
        initPass.audit.kept_lines = 0 := by
      refine ⟨rfl, rfl, rfl, rfl, rfl⟩
    unfold processFile
    omega
  intro ls
  induction ls with
  | nil => intro st; simp
  | cons l rest ih =>
    intro st
    have hstep := processLine_counters st l
    have hrest := ih (processLine st l)
    rw [show (l :: rest).foldl processLine st = rest.foldl processLine (processLine st l)
      from rfl]
    simp only [List.length_cons]
    omega

/-- Claim C4: when the continuity check fails on a kept line, the pass sets
the audit's continuity flag to false, increments the gap counter, records
the gap detail only when it is the first gap of the file (later gaps leave
the recorded detail untouched), resets the continuity baseline to undefined,
and still writes the normalized record to the normalized output; moreover
along any full pass the recorded first-gap detail is absent exactly while
the gap counter is zero. -/
theorem C4_gap_handling :
    (∀ (st : PassState) (d : Delta), continuity_ok st.prev_u d.U d.u = false →
      (processLine st (.ok d)).audit.continuity_ok = false ∧
      (processLine st (.ok d)).audit.gaps = st.audit.gaps + 1 ∧
      (st.audit.first_gap = none →
        (processLine st (.ok d)).audit.first_gap =
          some ⟨st.prev_u, d.U, d.u, st.audit.raw_lines + 1⟩) ∧
      (∀ g, st.audit.first_gap = some g →
        (processLine st (.ok d)).audit.first_gap = some g) ∧
      (processLine st (.ok d)).prev_u = none ∧
      (processLine st (.ok d)).norm_out = st.norm_out ++ [d]) ∧
    (∀ ls : List LineResult,
      ((processFile ls).audit.first_gap = none ↔ (processFile ls).audit.gaps = 0)) := by
  constructor
  · intro st d h
    simp only [processLine, h]
    refine ⟨?_, ?_, ?_, ?_, ?_, ?_⟩
    · split <;> simp
    · split <;> simp
    · intro hfg
      split <;> simp [hfg]
    · intro g hfg
      split <;> simp [hfg]
    · split <;> simp
    · split <;> simp
  · intro ls
    suffices h : ∀ (ls : List LineResult) (st : PassState),
        (st.audit.first_gap = none ↔ st.audit.gaps = 0) →
        ((ls.foldl processLine st).audit.first_gap = none ↔
         (ls.foldl processLine st).audit.gaps = 0) by
      exact h ls initPass (by constructor <;> intro <;> rfl)
    intro ls
    induction ls with
    | nil => intro st hst; exact hst
    | cons l rest ih =>
      intro st hst
      rw [show (l :: rest).foldl processLine st = rest.foldl processLine (processLine st l)
        from rfl]
      refine ih (processLine st l) ?_
      cases l with
      | badJson => exact hst
      | badSchema => exact hst
      | normError => exact hst
      | ok d =>
        simp only [processLine]
        by_cases hc : continuity_ok st.prev_u d.U d.u
        · simp only [hc, if_pos]
          split <;> exact hst
        · simp only [Bool.not_eq_true] at hc
          simp only [hc]
          cases hfg : st.audit.first_gap with
          | none =>
            split <;> simp [hfg]
          | some g =>
            have : ¬ st.audit.gaps = 0 := fun h0 => by
              have := hst.2 h0
              rw [this] at hfg
              exact Option.noConfusion hfg
            split <;> simp [hfg, this]

/-- Claim C4 witness: the spec's end-to-end scenario, update-id ranges
(1,5) then (7,10): the second line is a gap and is handled as claimed. -/
theorem C4_gap_handling_witness :
    (processLine (processFile [LineResult.ok ⟨1, 5, [], []⟩])
        (LineResult.ok ⟨7, 10, [], []⟩)).audit.continuity_ok = false ∧
    (processLine (processFile [LineResult.ok ⟨1, 5, [], []⟩])
        (LineResult.ok ⟨7, 10, [], []⟩)).audit.gaps =
      (processFile [LineResult.ok ⟨1, 5, [], []⟩]).audit.gaps + 1 ∧
    (processLine (processFile [LineResult.ok ⟨1, 5, [], []⟩])
        (LineResult.ok ⟨7, 10, [], []⟩)).audit.first_gap =
      some ⟨(processFile [LineResult.ok ⟨1, 5, [], []⟩]).prev_u, 7, 10,
            (processFile [LineResult.ok ⟨1, 5, [], []⟩]).audit.raw_lines + 1⟩ ∧
    (processLine (processFile [LineResult.ok ⟨1, 5, [], []⟩])
        (LineResult.ok ⟨7, 10, [], []⟩)).prev_u = none ∧
    (processLine (processFile [LineResult.ok ⟨1, 5, [], []⟩])
        (LineResult.ok ⟨7, 10, [], []⟩)).norm_out =
      (processFile [LineResult.ok ⟨1, 5, [], []⟩]).norm_out ++ [⟨7, 10, [], []⟩] := by
  have h := C4_gap_handling.1 (processFile [LineResult.ok ⟨1, 5, [], []⟩])
    ⟨7, 10, [], []⟩ (by decide)
  exact ⟨h.1, h.2.1, h.2.2.1 (by decide), h.2.2.2.2.1, h.2.2.2.2.2⟩

/-- Claim C9: the per-file pass is skipped (all outputs byte-identical) if
and only if all three outputs already exist; a partially existing output set
is fully reprocessed and overwritten; hence a second run over unchanged
outputs leaves them unchanged. -/
theorem C9_idempotent_skip :
    (∀ (fs : OutFiles) (ls : List LineResult),
      runPass fs ls = fs ↔ (fs.norm.isSome ∧ fs.prices.isSome ∧ fs.audit.isSome)) ∧
    (∀ (fs : OutFiles) (ls : List LineResult),
      ¬(fs.norm.isSome ∧ fs.prices.isSome ∧ fs.audit.isSome) →
      runPass fs ls = ⟨some (processFile ls).norm_out, some (processFile ls).px_out,
                       some (processFile ls).audit⟩) ∧
    (∀ (fs : OutFiles) (ls : List LineResult),
      runPass (runPass fs ls) ls = runPass fs ls) := by
  have hneg : ∀ (fs : OutFiles) (ls : List LineResult),
      ¬(fs.norm.isSome ∧ fs.prices.isSome ∧ fs.audit.isSome) →
      runPass fs ls = ⟨some (processFile ls).norm_out, some (processFile ls).px_out,
                       some (processFile ls).audit⟩ := by
    intro fs ls h
    have hc : ¬(fs.norm.isSome && fs.prices.isSome && fs.audit.isSome) = true := by
      simp only [Bool.and_eq_true]
      intro hh
      exact h ⟨hh.1.1, hh.1.2, hh.2⟩
    unfold runPass
    rw [if_neg hc]
  have hpos : ∀ (fs : OutFiles) (ls : List LineResult),
      (fs.norm.isSome ∧ fs.prices.isSome ∧ fs.audit.isSome) → runPass fs ls = fs := by
    intro fs ls h
    unfold runPass
    rw [if_pos]
    simp only [Bool.and_eq_true]
    exact ⟨⟨h.1, h.2.1⟩, h.2.2⟩
  refine ⟨?_, hneg, ?_⟩
  · intro fs ls
    constructor
    · intro heq
      by_cases h : fs.norm.isSome ∧ fs.prices.isSome ∧ fs.audit.isSome
      · exact h
      · rw [hneg fs ls h] at heq
        rw [← heq]
        simp
    · exact hpos fs ls
  · intro fs ls
    by_cases h : fs.norm.isSome ∧ fs.prices.isSome ∧ fs.audit.isSome
    · rw [hpos fs ls h]
      exact hpos fs ls h
    · rw [hneg fs ls h]
      exact hpos _ ls (by simp)

/-- Claim C9 witness: a directory with only the normalized output present
(prices and audit missing) is reprocessed and fully overwritten. -/
theorem C9_idempotent_skip_witness :
    runPass ⟨some [⟨1, 2, [], []⟩], none, none⟩ [] =
      ⟨some (processFile []).norm_out, some (processFile []).px_out,
       some (processFile []).audit⟩ :=
  C9_idempotent_skip.2.1 ⟨some [⟨1, 2, [], []⟩], none, none⟩ [] (by decide)

/-- Finalizing with no open handle is a no-op (`if self.fp is None: return`). -/
theorem closeAndFinalize_closed (s : WSys) (h : s.w.fp = false) :
    closeAndFinalize s = s := by
  unfold closeAndFinalize
  rw [h]
  rfl

/-- What opening a bucket does: the writer ends up open on the bucket's
filename, the temp file is created if absent with its existing content kept
(append mode), and nothing else changes. -/
theorem openForBucket_spec (s : WSys) (b : ℤ) :
    (openForBucket s b).openOn b (s.w.filename_fn b) ∧
    (openForBucket s b).w.filename_fn = s.w.filename_fn ∧
    (openForBucket s b).w.buffer = s.w.buffer ∧
    (openForBucket s b).w.last_flush = s.w.last_flush ∧
    (openForBucket s b).fs.tmp (s.w.filename_fn b) =
      some ((s.fs.tmp (s.w.filename_fn b)).getD []) ∧
    (∀ n, n ≠ s.w.filename_fn b → (openForBucket s b).fs.tmp n = s.fs.tmp n) ∧
    (openForBucket s b).fs.final = s.fs.final := by
  refine ⟨⟨rfl, rfl, rfl, rfl⟩, rfl, rfl, rfl, ?_, ?_, rfl⟩
  · simp [openForBucket]
  · intro n hn
    simp [openForBucket, hn]

/-- A `write` call that finds no bucket open (or a different bucket open)
first finalizes, then opens the item's bucket, then appends. -/
theorem writeW_opens (s : WSys) (now : ℚ) (item : WriteItem)
    (h : s.w.current_bucket = none ∨ s.w.current_bucket ≠ some item.bucket) :
    writeW s now item =
      appendAndMaybeFlush (openForBucket (closeAndFinalize s) item.bucket)
        now item.line := by
  unfold writeW
  rw [if_pos h]

/-- A `write` call on the currently open bucket only appends. -/
theorem writeW_same (s : WSys) (now : ℚ) (item : WriteItem) (b : ℤ) (nm : String)
    (hopen : s.openOn b nm) (hb : item.bucket = b) :
    writeW s now item = appendAndMaybeFlush s now item.line := by
  unfold writeW
  rw [if_neg]
  push_neg
  refine ⟨by rw [hopen.1]; exact fun hh => Option.noConfusion hh, ?_⟩
  rw [hopen.1, hb]

/-- The append/batching step keeps the writer open on the same bucket,
extends the accumulated bucket content by the written line, and touches no
other temp file and no final file. -/
theorem appendAndMaybeFlush_spec (s : WSys) (now : ℚ) (l : Line) (b : ℤ) (nm : String)
    (h : s.openOn b nm) :
    (appendAndMaybeFlush s now l).openOn b nm ∧
    (appendAndMaybeFlush s now l).w.filename_fn = s.w.filename_fn ∧
    tmpContent (appendAndMaybeFlush s now l) nm = tmpContent s nm ++ [l] ∧
    (∀ n, n ≠ nm → (appendAndMaybeFlush s now l).fs.tmp n = s.fs.tmp n) ∧
    (appendAndMaybeFlush s now l).fs.final = s.fs.final := by
  obtain ⟨hcb, hfp, htp, hfpath⟩ := h
  unfold appendAndMaybeFlush
  dsimp only
  rw [htp]
  split_ifs with hcond
  · refine ⟨⟨hcb, hfp, rfl, hfpath⟩, rfl, ?_, ?_, rfl⟩
    · unfold tmpContent
      dsimp only
      simp [List.append_assoc]
    · intro n hn
      dsimp only
      rw [if_neg hn]
  · refine ⟨⟨hcb, hfp, rfl, hfpath⟩, rfl, ?_, fun n _ => rfl, rfl⟩
    unfold tmpContent
    dsimp only
    simp [List.append_assoc]

/-- What finalizing an open bucket does: the accumulated content lands under
the final name, the temp file disappears, the writer returns to the closed
state, and every other file is untouched. -/
theorem closeAndFinalize_spec (s : WSys) (b : ℤ) (nm : String) (h : s.openOn b nm) :
    (closeAndFinalize s).fs.final nm = some (tmpContent s nm) ∧
    (∀ n, n ≠ nm → (closeAndFinalize s).fs.final n = s.fs.final n) ∧
    (closeAndFinalize s).fs.tmp nm = none ∧
    (∀ n, n ≠ nm → (closeAndFinalize s).fs.tmp n = s.fs.tmp n) ∧
    (closeAndFinalize s).w.current_bucket = none ∧
    (closeAndFinalize s).w.fp = false ∧
    (closeAndFinalize s).w.buffer = [] ∧
    (closeAndFinalize s).w.filename_fn = s.w.filename_fn := by
  obtain ⟨hcb, hfp, htp, hfpath⟩ := h
  unfold closeAndFinalize
  rw [hfp, htp, hfpath, if_pos rfl]
  dsimp only
  refine ⟨by rw [if_pos rfl]; rfl, ?_, by rw [if_pos rfl], ?_, rfl, rfl, rfl, rfl⟩
  · intro n hn
    rw [if_neg hn]
  · intro n hn
    rw [if_neg hn]

/-- Running same-bucket writes keeps the bucket open, appends the written
lines to the accumulated content in arrival order, and touches no other
temp file and no final file. -/
theorem runWrites_same (ws : List (ℚ × WriteItem)) :
    ∀ (s : WSys) (b : ℤ) (nm : String), s.openOn b nm →
    (∀ w ∈ ws, (Prod.snd w).bucket = b) →
    (runWrites s ws).openOn b nm ∧
    (runWrites s ws).w.filename_fn = s.w.filename_fn ∧
    tmpContent (runWrites s ws) nm =
      tmpContent s nm ++ ws.map (fun w => (Prod.snd w).line) ∧
    (∀ n, n ≠ nm → (runWrites s ws).fs.tmp n = s.fs.tmp n) ∧
    (runWrites s ws).fs.final = s.fs.final := by
  induction ws with
  | nil =>
    intro s b nm h _
    exact ⟨h, rfl, by simp [runWrites, tmpContent], fun n _ => rfl, rfl⟩
  | cons w rest ih =>
    intro s b nm h hb
    have hw : (Prod.snd w).bucket = b := hb w (List.mem_cons_self w rest)
    have hrest : ∀ x ∈ rest, (Prod.snd x).bucket = b :=
      fun x hx => hb x (List.mem_cons_of_mem w hx)
    have hstep := appendAndMaybeFlush_spec s w.1 (Prod.snd w).line b nm h
    have hrun : runWrites s (w :: rest) =
        runWrites (appendAndMaybeFlush s w.1 (Prod.snd w).line) rest := by
      rw [show runWrites s (w :: rest) = runWrites (writeW s w.1 w.2) rest from rfl,
        writeW_same s w.1 w.2 b nm h hw]
    rw [hrun]
    obtain ⟨ho, hfn, hc, htmp, hfin⟩ := hstep
    obtain ⟨ro, rfn, rc, rtmp, rfin⟩ := ih (appendAndMaybeFlush s w.1 (Prod.snd w).line)
      b nm ho hrest
    refine ⟨ro, by rw [rfn, hfn], ?_, ?_, by rw [rfin, hfin]⟩
    · rw [rc, hc]
      simp [List.append_assoc]
    · intro n hn
      rw [rtmp n hn, htmp n hn]

/-- Below both thresholds, the batching step only grows the in-memory
buffer: nothing reaches the filesystem and the flush timer is untouched. -/
theorem appendAndMaybeFlush_nofl (s : WSys) (now : ℚ) (l : Line)
    (h1 : s.w.buffer.length + 1 < BATCH_SIZE)
    (h2 : now - s.w.last_flush < FLUSH_INTERVAL_SEC) :
    appendAndMaybeFlush s now l =
      { s with w := { s.w with buffer := s.w.buffer ++ [l] } } := by
  unfold appendAndMaybeFlush
  dsimp only
  rw [if_neg]
  push_neg
  constructor
  · simpa using h1
  · exact h2

/-- Same-bucket writes all below both thresholds leave the filesystem and
the flush timer untouched and only accumulate lines in the buffer. -/
theorem runWrites_nofl (ws : List (ℚ × Line)) :
    ∀ (s : WSys) (b : ℤ) (nm : String), s.openOn b nm →
    (∀ w ∈ ws, Prod.fst w - s.w.last_flush < FLUSH_INTERVAL_SEC) →
    s.w.buffer.length + ws.length < BATCH_SIZE →
    (runWrites s (ws.map (fun w => (Prod.fst w, WriteItem.mk b (Prod.snd w))))).w.buffer =
      s.w.buffer ++ ws.map Prod.snd ∧
    (runWrites s (ws.map (fun w => (Prod.fst w, WriteItem.mk b (Prod.snd w))))).w.last_flush =
      s.w.last_flush ∧
    (runWrites s (ws.map (fun w => (Prod.fst w, WriteItem.mk b (Prod.snd w))))).openOn b nm ∧
    (runWrites s (ws.map (fun w => (Prod.fst w, WriteItem.mk b (Prod.snd w))))).fs = s.fs := by
  induction ws with
  | nil =>
    intro s b nm h _ _
    exact ⟨by simp [runWrites], rfl, h, rfl⟩
  | cons w rest ih =>
    intro s b nm h hlf hn
    have hstep : writeW s w.1 ⟨b, w.2⟩ =
        { s with w := { s.w with buffer := s.w.buffer ++ [w.2] } } := by
      rw [writeW_same s w.1 ⟨b, w.2⟩ b nm h rfl]
      exact appendAndMaybeFlush_nofl s w.1 w.2
        (by simp at hn ⊢; omega)
        (hlf w (List.mem_cons_self w rest))
    have hrun : runWrites s ((w :: rest).map
          (fun x => (Prod.fst x, WriteItem.mk b (Prod.snd x)))) =
        runWrites { s with w := { s.w with buffer := s.w.buffer ++ [w.2] } }
          (rest.map (fun x => (Prod.fst x, WriteItem.mk b (Prod.snd x)))) := by
      rw [show ((w :: rest).map (fun x => (Prod.fst x, WriteItem.mk b (Prod.snd x)))) =
          (w.1, WriteItem.mk b w.2) ::
            rest.map (fun x => (Prod.fst x, WriteItem.mk b (Prod.snd x))) from rfl]
      rw [show runWrites s ((w.1, WriteItem.mk b w.2) ::
          rest.map (fun x => (Prod.fst x, WriteItem.mk b (Prod.snd x)))) =
          runWrites (writeW s w.1 ⟨b, w.2⟩)
            (rest.map (fun x => (Prod.fst x, WriteItem.mk b (Prod.snd x)))) from rfl]
      rw [hstep]
    rw [hrun]
    have h2 : ({ s with w := { s.w with buffer := s.w.buffer ++ [w.2] } } : WSys).openOn
        b nm := ⟨h.1, h.2.1, h.2.2.1, h.2.2.2⟩
    obtain ⟨r1, r2, r3, r4⟩ := ih { s with w := { s.w with buffer := s.w.buffer ++ [w.2] } }
      b nm h2 (fun x hx => hlf x (List.mem_cons_of_mem w hx))
      (by simp at hn ⊢; omega)
    refine ⟨?_, r2, r3, r4⟩
    rw [r1]
    simp [List.append_assoc]

/-- Unfolding one write from a write sequence. -/
theorem runWrites_cons (s : WSys) (w : ℚ × WriteItem) (ws : List (ℚ × WriteItem)) :
    runWrites s (w :: ws) = runWrites (writeW s w.1 w.2) ws := rfl

/-- Claim C1: for a write sequence with buckets [1,1,1,2,2] followed by
close, starting from a fresh writer over an empty directory with distinct
filenames for the two buckets: exactly the two final files exist, each
holding exactly its bucket's lines in arrival order, no temp file remains,
and bucket 1 is fully finalized (final file present, temp file gone) before
bucket 2's temp file receives its first line. -/
theorem C1_writer_atomicity (fn : ℤ → String) (t0 t1 t2 t3 t4 t5 : ℚ)
    (l1 l2 l3 l4 l5 : Line) (hfn : fn 1 ≠ fn 2) :
    (closeW (writeW (writeW (runWrites (mkWSys fn t0)
        [(t1, ⟨1, l1⟩), (t2, ⟨1, l2⟩), (t3, ⟨1, l3⟩)]) t4 ⟨2, l4⟩)
        t5 ⟨2, l5⟩)).fs.final (fn 1) = some [l1, l2, l3] ∧
    (closeW (writeW (writeW (runWrites (mkWSys fn t0)
        [(t1, ⟨1, l1⟩), (t2, ⟨1, l2⟩), (t3, ⟨1, l3⟩)]) t4 ⟨2, l4⟩)
        t5 ⟨2, l5⟩)).fs.final (fn 2) = some [l4, l5] ∧
    (∀ n, n ≠ fn 1 → n ≠ fn 2 → (closeW (writeW (writeW (runWrites (mkWSys fn t0)
        [(t1, ⟨1, l1⟩), (t2, ⟨1, l2⟩), (t3, ⟨1, l3⟩)]) t4 ⟨2, l4⟩)
        t5 ⟨2, l5⟩)).fs.final n = none) ∧
    (∀ n, (closeW (writeW (writeW (runWrites (mkWSys fn t0)
        [(t1, ⟨1, l1⟩), (t2, ⟨1, l2⟩), (t3, ⟨1, l3⟩)]) t4 ⟨2, l4⟩)
        t5 ⟨2, l5⟩)).fs.tmp n = none) ∧
    (writeW (runWrites (mkWSys fn t0)
        [(t1, ⟨1, l1⟩), (t2, ⟨1, l2⟩), (t3, ⟨1, l3⟩)]) t4 ⟨2, l4⟩).fs.final (fn 1) =
      some [l1, l2, l3] ∧
    (writeW (runWrites (mkWSys fn t0)
        [(t1, ⟨1, l1⟩), (t2, ⟨1, l2⟩), (t3, ⟨1, l3⟩)]) t4 ⟨2, l4⟩).fs.tmp (fn 1) = none ∧
    (writeW (runWrites (mkWSys fn t0)
        [(t1, ⟨1, l1⟩), (t2, ⟨1, l2⟩), (t3, ⟨1, l3⟩)]) t4 ⟨2, l4⟩).w.current_bucket =
      some 2 := by
  have hsplit : runWrites (mkWSys fn t0) [(t1, ⟨1, l1⟩), (t2, ⟨1, l2⟩), (t3, ⟨1, l3⟩)] =
      runWrites (appendAndMaybeFlush (openForBucket (mkWSys fn t0) 1) t1 l1)
        [(t2, ⟨1, l2⟩), (t3, ⟨1, l3⟩)] := by
    rw [runWrites_cons]
    dsimp only
    rw [writeW_opens (mkWSys fn t0) t1 ⟨1, l1⟩ (Or.inl rfl),
      closeAndFinalize_closed (mkWSys fn t0) rfl]
  rw [hsplit]
  have ho := openForBucket_spec (mkWSys fn t0) 1
  rw [show (mkWSys fn t0).w.filename_fn = fn from rfl] at ho
  have hbase : tmpContent (openForBucket (mkWSys fn t0) 1) (fn 1) = [] := by
    unfold tmpContent
    rw [ho.2.2.2.2.1, ho.2.2.1]
    rfl
  have ha := appendAndMaybeFlush_spec (openForBucket (mkWSys fn t0) 1) t1 l1 1 (fn 1) ho.1
  obtain ⟨s1, hs1⟩ : ∃ x : WSys,
      x = appendAndMaybeFlush (openForBucket (mkWSys fn t0) 1) t1 l1 := ⟨_, rfl⟩
  rw [← hs1] at ha ⊢
  have hc1 : tmpContent s1 (fn 1) = [l1] := by
    rw [ha.2.2.1, hbase]
    rfl
  have hr := runWrites_same [(t2, ⟨1, l2⟩), (t3, ⟨1, l3⟩)] s1 1 (fn 1) ha.1
    (by
      intro w hw
      simp only [List.mem_cons, List.not_mem_nil, or_false] at hw
      rcases hw with rfl | rfl <;> rfl)
  obtain ⟨s3, hs3⟩ : ∃ x : WSys,
      x = runWrites s1 [(t2, ⟨1, l2⟩), (t3, ⟨1, l3⟩)] := ⟨_, rfl⟩
  rw [← hs3] at hr ⊢
  simp only [List.map_cons, List.map_nil] at hr
  have hc3 : tmpContent s3 (fn 1) = [l1, l2, l3] := by
    rw [hr.2.2.1, hc1]
    rfl
  have e4 : writeW s3 t4 ⟨2, l4⟩ =
      appendAndMaybeFlush (openForBucket (closeAndFinalize s3) 2) t4 l4 := by
    refine writeW_opens s3 t4 ⟨2, l4⟩ (Or.inr ?_)
    rw [hr.1.1]
    simp
  rw [e4]
  have hcf := closeAndFinalize_spec s3 1 (fn 1) hr.1
  obtain ⟨mid, hmid⟩ : ∃ x : WSys, x = closeAndFinalize s3 := ⟨_, rfl⟩
  rw [← hmid] at hcf ⊢
  have hfinmid1 : mid.fs.final (fn 1) = some [l1, l2, l3] := by
    rw [hcf.1, hc3]
  have hfnmid : mid.w.filename_fn = fn := by
    rw [hcf.2.2.2.2.2.2.2, hr.2.1, ha.2.1, ho.2.1]
  have hoo := openForBucket_spec mid 2
  rw [hfnmid] at hoo
  obtain ⟨s4o, hs4o⟩ : ∃ x : WSys, x = openForBucket mid 2 := ⟨_, rfl⟩
  rw [← hs4o] at hoo ⊢
  have hmid2 : mid.fs.tmp (fn 2) = none := by
    rw [hcf.2.2.2.1 (fn 2) (Ne.symm hfn), hr.2.2.2.1 (fn 2) (Ne.symm hfn),
      ha.2.2.2.1 (fn 2) (Ne.symm hfn), ho.2.2.2.2.2.1 (fn 2) (Ne.symm hfn)]
    rfl
  have hbase2 : tmpContent s4o (fn 2) = [] := by
    unfold tmpContent
    rw [hoo.2.2.2.2.1, hmid2, hoo.2.2.1, hcf.2.2.2.2.2.2.1]
    rfl
  have ha4 := appendAndMaybeFlush_spec s4o t4 l4 2 (fn 2) hoo.1
  obtain ⟨s4, hs4⟩ : ∃ x : WSys, x = appendAndMaybeFlush s4o t4 l4 := ⟨_, rfl⟩
  rw [← hs4] at ha4 ⊢
  have hc4 : tmpContent s4 (fn 2) = [l4] := by
    rw [ha4.2.2.1, hbase2]
    rfl
  have h41 : s4.fs.final (fn 1) = some [l1, l2, l3] := by
    rw [ha4.2.2.2.2, hoo.2.2.2.2.2.2, hfinmid1]
  have h42 : s4.fs.tmp (fn 1) = none := by
    rw [ha4.2.2.2.1 (fn 1) hfn, hoo.2.2.2.2.2.1 (fn 1) hfn, hcf.2.2.1]
  have h43 : s4.w.current_bucket = some 2 := ha4.1.1
  rw [writeW_same s4 t5 ⟨2, l5⟩ 2 (fn 2) ha4.1 rfl]
  have ha5 := appendAndMaybeFlush_spec s4 t5 l5 2 (fn 2) ha4.1
  obtain ⟨s5, hs5⟩ : ∃ x : WSys, x = appendAndMaybeFlush s4 t5 l5 := ⟨_, rfl⟩
  rw [← hs5] at ha5 ⊢
  have hc5 : tmpContent s5 (fn 2) = [l4, l5] := by
    rw [ha5.2.2.1, hc4]
    rfl
  have hcf5 := closeAndFinalize_spec s5 2 (fn 2) ha5.1
  rw [show closeW s5 = closeAndFinalize s5 from rfl]
  refine ⟨?_, ?_, ?_, ?_, h41, h42, h43⟩
  · rw [hcf5.2.1 (fn 1) hfn, ha5.2.2.2.2, h41]
  · rw [hcf5.1, hc5]
  · intro n h1 h2
    rw [hcf5.2.1 n h2, ha5.2.2.2.2, ha4.2.2.2.2, hoo.2.2.2.2.2.2, hcf.2.1 n h1,
      hr.2.2.2.2, ha.2.2.2.2, ho.2.2.2.2.2.2]
    rfl
  · intro n
    by_cases hn2 : n = fn 2
    · rw [hn2, hcf5.2.2.1]
    · rw [hcf5.2.2.2.1 n hn2, ha5.2.2.2.1 n hn2, ha4.2.2.2.1 n hn2,
        hoo.2.2.2.2.2.1 n hn2]
      by_cases hn1 : n = fn 1
      · rw [hn1, hcf.2.2.1]
      · rw [hcf.2.2.2.1 n hn1, hr.2.2.2.1 n hn1, ha.2.2.2.1 n hn1,
          ho.2.2.2.2.2.1 n hn1]
        rfl

/-- Claim C1 witness: concrete run with buckets [1,1,1,2,2], lines a..e and
filenames f1/f2. -/
theorem C1_writer_atomicity_witness :
    (closeW (writeW (writeW (runWrites
        (mkWSys (fun b => if b = 1 then ("f1" : String) else ("f2" : String)) 0)
        [(0, ⟨1, ("a" : Line)⟩), (0, ⟨1, "b"⟩), (0, ⟨1, "c"⟩)]) 0 ⟨2, "d"⟩)
        0 ⟨2, "e"⟩)).fs.final ("f1") = some ["a", "b", "c"] ∧
    (closeW (writeW (writeW (runWrites
        (mkWSys (fun b => if b = 1 then ("f1" : String) else ("f2" : String)) 0)
        [(0, ⟨1, ("a" : Line)⟩), (0, ⟨1, "b"⟩), (0, ⟨1, "c"⟩)]) 0 ⟨2, "d"⟩)
        0 ⟨2, "e"⟩)).fs.final ("f2") = some ["d", "e"] ∧
    (closeW (writeW (writeW (runWrites
        (mkWSys (fun b => if b = 1 then ("f1" : String) else ("f2" : String)) 0)
        [(0, ⟨1, ("a" : Line)⟩), (0, ⟨1, "b"⟩), (0, ⟨1, "c"⟩)]) 0 ⟨2, "d"⟩)
        0 ⟨2, "e"⟩)).fs.tmp ("f1") = none ∧
    (closeW (writeW (writeW (runWrites
        (mkWSys (fun b => if b = 1 then ("f1" : String) else ("f2" : String)) 0)
        [(0, ⟨1, ("a" : Line)⟩), (0, ⟨1, "b"⟩), (0, ⟨1, "c"⟩)]) 0 ⟨2, "d"⟩)
        0 ⟨2, "e"⟩)).fs.tmp ("f2") = none := by
  have h := C1_writer_atomicity (fun b => if b = 1 then ("f1" : String) else ("f2" : String))
    0 0 0 0 0 0 ("a") ("b") ("c") ("d") ("e") (by decide)
  exact ⟨h.1, h.2.1, h.2.2.2.1 ("f1"), h.2.2.2.1 ("f2")⟩

/-- Claim C8: a write sequence on a single bucket with fewer than
`BATCH_SIZE` items, all arriving less than `FLUSH_INTERVAL_SEC` after the
writer's construction-time flush timestamp, flushes nothing: the lines live
only in the in-memory buffer, the bucket's temp file stays empty, and no
other file exists. -/
theorem C8_writer_batching (fn : ℤ → String) (t0 : ℚ) (b : ℤ)
    (ws : List (ℚ × Line)) (hne : ws ≠ [])
    (hlen : ws.length < BATCH_SIZE)
    (htime : ∀ w ∈ ws, Prod.fst w - t0 < FLUSH_INTERVAL_SEC) :
    (runWrites (mkWSys fn t0)
        (ws.map (fun w => (Prod.fst w, WriteItem.mk b (Prod.snd w))))).w.buffer =
      ws.map Prod.snd ∧
    (runWrites (mkWSys fn t0)
        (ws.map (fun w => (Prod.fst w, WriteItem.mk b (Prod.snd w))))).fs.tmp (fn b) =
      some [] ∧
    (∀ n, n ≠ fn b → (runWrites (mkWSys fn t0)
        (ws.map (fun w => (Prod.fst w, WriteItem.mk b (Prod.snd w))))).fs.tmp n = none) ∧
    (∀ n, (runWrites (mkWSys fn t0)
        (ws.map (fun w => (Prod.fst w, WriteItem.mk b (Prod.snd w))))).fs.final n
      = none) := by
  cases ws with
  | nil => exact absurd rfl hne
  | cons hd tl =>
    rw [show ((hd :: tl).map (fun w => (Prod.fst w, WriteItem.mk b (Prod.snd w)))) =
        (hd.1, WriteItem.mk b hd.2) ::
          tl.map (fun w => (Prod.fst w, WriteItem.mk b (Prod.snd w))) from rfl]
    rw [runWrites_cons]
    dsimp only
    rw [writeW_opens (mkWSys fn t0) hd.1 (WriteItem.mk b hd.2) (Or.inl rfl),
      closeAndFinalize_closed (mkWSys fn t0) rfl]
    dsimp only
    have ho := openForBucket_spec (mkWSys fn t0) b
    rw [show (mkWSys fn t0).w.filename_fn = fn from rfl] at ho
    have h1 : (openForBucket (mkWSys fn t0) b).w.buffer.length + 1 < BATCH_SIZE := by
      rw [ho.2.2.1]
      show 0 + 1 < BATCH_SIZE
      decide
    have h2 : hd.1 - (openForBucket (mkWSys fn t0) b).w.last_flush <
        FLUSH_INTERVAL_SEC := by
      rw [ho.2.2.2.1]
      exact htime hd (List.mem_cons_self hd tl)
    obtain ⟨s1, hs1⟩ : ∃ x : WSys,
        x = appendAndMaybeFlush (openForBucket (mkWSys fn t0) b) hd.1 hd.2 := ⟨_, rfl⟩
    rw [← hs1]
    have hs1' := appendAndMaybeFlush_nofl (openForBucket (mkWSys fn t0) b) hd.1 hd.2 h1 h2
    rw [← hs1] at hs1'
    have hs1open : s1.openOn b (fn b) := by
      rw [hs1']
      exact ho.1
    have hs1buf : s1.w.buffer = [hd.2] := by
      rw [hs1']
      dsimp only
      rw [ho.2.2.1]
      rfl
    have hs1lf : s1.w.last_flush = t0 := by
      rw [hs1']
      dsimp only
      rw [ho.2.2.2.1]
      rfl
    have hs1fs : s1.fs = (openForBucket (mkWSys fn t0) b).fs := by
      rw [hs1']
    obtain ⟨r1, r2, r3, r4⟩ := runWrites_nofl tl s1 b (fn b) hs1open
      (fun w hw => by
        rw [hs1lf]
        exact htime w (List.mem_cons_of_mem hd hw))
      (by
        rw [hs1buf]
        simp only [List.length_cons, List.length_nil] at *
        omega)
    refine ⟨?_, ?_, ?_, ?_⟩
    · rw [r1, hs1buf]
      simp
    · rw [r4, hs1fs, ho.2.2.2.2.1]
      rfl
    · intro n hn
      rw [r4, hs1fs, ho.2.2.2.2.2.1 n hn]
      rfl
    · intro n
      rw [r4, hs1fs, ho.2.2.2.2.2.2]
      rfl

/-- Claim C8 witness: two writes at the construction instant stay buffered. -/
theorem C8_writer_batching_witness :
    (runWrites (mkWSys (fun _ => ("f" : String)) 0)
        ([((0 : ℚ), ("x" : Line)), (0, "y")].map
          (fun w => (Prod.fst w, WriteItem.mk 7 (Prod.snd w))))).w.buffer = ["x", "y"] ∧
    (runWrites (mkWSys (fun _ => ("f" : String)) 0)
        ([((0 : ℚ), ("x" : Line)), (0, "y")].map
          (fun w => (Prod.fst w, WriteItem.mk 7 (Prod.snd w))))).fs.tmp ("f") = some [] ∧
    (runWrites (mkWSys (fun _ => ("f" : String)) 0)
        ([((0 : ℚ), ("x" : Line)), (0, "y")].map
          (fun w => (Prod.fst w, WriteItem.mk 7 (Prod.snd w))))).fs.final ("f") = none := by
  have h := C8_writer_batching (fun _ => ("f" : String)) 0 7 [(0, "x"), (0, "y")]
    (by simp) (by decide)
    (by
      intro w hw
      simp only [List.mem_cons, List.not_mem_nil, or_false] at hw
      rcases hw with rfl | rfl <;> norm_num [FLUSH_INTERVAL_SEC])
  exact ⟨h.1, h.2.1, h.2.2.2 ("f")⟩

/-- Claim C10 (implicit behavior of the code): a leftover temp file for a
bucket is opened in append mode, so after writing that bucket and closing,
the finalized file holds the stale prior bytes followed by the lines written
in this run. -/
theorem C10_stale_tmp_appended (fn : ℤ → String) (t0 : ℚ) (b : ℤ) (stale : List Line)
    (dir : DirState) (hstale : dir.tmp (fn b) = some stale)
    (t1 : ℚ) (x : Line) (ws : List (ℚ × Line)) :
    (closeW (runWrites ⟨initWriter fn t0, dir⟩
        ((t1, WriteItem.mk b x) ::
          ws.map (fun w => (Prod.fst w, WriteItem.mk b (Prod.snd w)))))).fs.final (fn b) =
      some (stale ++ x :: ws.map Prod.snd) := by
  rw [runWrites_cons]
  dsimp only
  rw [writeW_opens ⟨initWriter fn t0, dir⟩ t1 (WriteItem.mk b x) (Or.inl rfl),
    closeAndFinalize_closed ⟨initWriter fn t0, dir⟩ rfl]
  dsimp only
  have ho := openForBucket_spec ⟨initWriter fn t0, dir⟩ b
  rw [show (⟨initWriter fn t0, dir⟩ : WSys).w.filename_fn = fn from rfl] at ho
  have hbase : tmpContent (openForBucket ⟨initWriter fn t0, dir⟩ b) (fn b) = stale := by
    unfold tmpContent
    rw [ho.2.2.2.2.1, show (⟨initWriter fn t0, dir⟩ : WSys).fs.tmp (fn b) = some stale
      from hstale, ho.2.2.1,
      show (⟨initWriter fn t0, dir⟩ : WSys).w.buffer = ([] : List Line) from rfl]
    simp
  have ha := appendAndMaybeFlush_spec (openForBucket ⟨initWriter fn t0, dir⟩ b)
    t1 x b (fn b) ho.1
  obtain ⟨s1, hs1⟩ : ∃ y : WSys,
      y = appendAndMaybeFlush (openForBucket ⟨initWriter fn t0, dir⟩ b) t1 x := ⟨_, rfl⟩
  rw [← hs1] at ha ⊢
  have hc1 : tmpContent s1 (fn b) = stale ++ [x] := by
    rw [ha.2.2.1, hbase]
  have hr := runWrites_same (ws.map (fun w => (Prod.fst w, WriteItem.mk b (Prod.snd w))))
    s1 b (fn b) ha.1
    (by
      intro w hw
      rcases List.mem_map.mp hw with ⟨a, _, rfl⟩
      rfl)
  obtain ⟨r, hrdef⟩ : ∃ y : WSys,
      y = runWrites s1 (ws.map (fun w => (Prod.fst w, WriteItem.mk b (Prod.snd w)))) :=
    ⟨_, rfl⟩
  rw [← hrdef] at hr ⊢
  have hmaps : (ws.map (fun w => (Prod.fst w, WriteItem.mk b (Prod.snd w)))).map
      (fun w => (Prod.snd w).line) = ws.map Prod.snd := by
    rw [List.map_map]
    rfl
  have hcr : tmpContent r (fn b) = stale ++ x :: ws.map Prod.snd := by
    rw [hr.2.2.1, hmaps, hc1]
    simp
  have hcf := closeAndFinalize_spec r b (fn b) hr.1
  rw [show closeW r = closeAndFinalize r from rfl, hcf.1, hcr]

/-- Claim C10 witness: the stale temp line old is kept in front of the new
lines x and y after finalizing. -/
theorem C10_stale_tmp_appended_witness :
    (closeW (runWrites ⟨initWriter (fun _ => ("f" : String)) 0,
        ⟨fun n => if n = ("f" : String) then some [("old" : Line)] else none,
         fun _ => none⟩⟩
        ((0, WriteItem.mk 3 ("x" : Line)) ::
          [((0 : ℚ), ("y" : Line))].map
            (fun w => (Prod.fst w, WriteItem.mk 3 (Prod.snd w)))))).fs.final ("f") =
      some ["old", "x", "y"] := by
  have h := C10_stale_tmp_appended (fun _ => ("f" : String)) 0 3 [("old" : Line)]
    ⟨fun n => if n = ("f" : String) then some [("old" : Line)] else none, fun _ => none⟩
    (by simp) 0 ("x") [(0, "y")]
  exact h
